import Mathlib

/-!
Verification of the `graph_tool.spectral` module (adjacency, laplacian,
incidence) against its natural-language specification.

The module builds three matrices by iterating a graph once and accumulating
(`+=`) or assigning (`=`) entries into either a dense zero-initialized matrix
or a sparse (lil) matrix.  We embed each builder as the list of elementary
matrix operations it performs, in program order, and interpret that list both
densely (a function matrix) and sparsely (an association list), mirroring the
two storage branches of the source.

The graph data structure itself is an external collaborator of the module
(only `spectral/__init__.py` is the source under verification).  It is
modelled from the spec: a multigraph is a vertex count `n`, a list of stored
arcs (source, target) whose list position is the edge index, and a
directedness flag.  For an undirected graph the out-edge traversal of a
vertex enumerates all incident edges (a self-loop twice), and there is no
separate in-edge traversal; weights are an optional map from edge index to a
rational number (absent means unit weight).
-/

namespace GTS

/-- A multigraph snapshot: `n` vertices `0..n-1`, stored arcs (source,
target) in enumeration order (the list position of an arc is its edge
index), and a directedness flag. -/
structure Graph where
  n : Nat
  arcs : List (Nat × Nat)
  directed : Bool
deriving DecidableEq

/-- Arc endpoints are vertices of the graph. -/
def Graph.Valid (g : Graph) : Prop :=
  ∀ a ∈ g.arcs, a.1 < g.n ∧ a.2 < g.n

instance (g : Graph) : Decidable g.Valid := by
  unfold Graph.Valid; infer_instance

/-- Pair each list element with its index, starting at `s`; this translates
the `for i, e in enumerate(g.edges())` edge-index assignment loop. -/
def enumF {β : Type} : Nat → List β → List (Nat × β)
  | _, [] => []
  | s, a :: l => (s, a) :: enumF (s + 1) l

/-- The arcs of a graph paired with their edge indices. -/
def arcsIdx (g : Graph) : List (Nat × (Nat × Nat)) :=
  enumF 0 g.arcs

/-- Modelled from the spec: the out-edge traversal of the graph
collaborator.  Each element is (edge index, target vertex as seen from `v`).
For a directed graph these are the stored arcs with source `v`.  For an
undirected graph the traversal enumerates all incident edges: every stored
arc touching `v`, with the other endpoint as target (a self-loop appears
twice). -/
def outEdges (g : Graph) (v : Nat) : List (Nat × Nat) :=
  if g.directed then
    ((arcsIdx g).filter (fun e => decide (e.2.1 = v))).map (fun e => (e.1, e.2.2))
  else
    ((arcsIdx g).filter (fun e => decide (e.2.1 = v))).map (fun e => (e.1, e.2.2))
    ++ ((arcsIdx g).filter (fun e => decide (e.2.2 = v))).map (fun e => (e.1, e.2.1))

/-- Modelled from the spec: the in-edge traversal.  For a directed graph,
the stored arcs with target `v` (paired with their source).  For an
undirected graph the out-edge traversal already enumerates all incident
edges, so there is no separate in-edge traversal and it is empty. -/
def inEdges (g : Graph) (v : Nat) : List (Nat × Nat) :=
  if g.directed then
    ((arcsIdx g).filter (fun e => decide (e.2.2 = v))).map (fun e => (e.1, e.2.1))
  else []

/-- Modelled from the spec: the all-edge traversal used by the weighted
total degree; for a directed graph it chains in- and out-edges (a self-loop
appears in both), for an undirected graph it is the incident-edge
traversal. -/
def allEdges (g : Graph) (v : Nat) : List (Nat × Nat) :=
  if g.directed then inEdges g v ++ outEdges g v else outEdges g v

/-- Out-degree of a vertex: the length of its out-edge traversal. -/
def out_degree (g : Graph) (v : Nat) : Nat :=
  (outEdges g v).length

/-- In-degree of a vertex: the length of its in-edge traversal. -/
def in_degree (g : Graph) (v : Nat) : Nat :=
  (inEdges g v).length

/-- Apply the optional weight map to an edge index; an absent weight map
means every edge has weight 1. -/
def wOf (weight : Option (Nat → ℚ)) (eid : Nat) : ℚ :=
  match weight with
  | none => 1
  | some w => w eid

/-- Translation of `_get_deg(v, deg, weight)`: the degree of `v` under the
convention `deg`, unweighted (counting edges) when `weight` is absent, else
summing the weights over the corresponding edge traversal.  Any string
other than "total" and "in" takes the final (out) branch, as in the
source. -/
def _get_deg (g : Graph) (v : Nat) (deg : String) (weight : Option (Nat → ℚ)) : ℚ :=
  if deg = "total" then
    match weight with
    | none => ((in_degree g v + out_degree g v : Nat) : ℚ)
    | some w => ((allEdges g v).map (fun e => w e.1)).sum
  else if deg = "in" then
    match weight with
    | none => ((in_degree g v : Nat) : ℚ)
    | some w => ((inEdges g v).map (fun e => w e.1)).sum
  else
    match weight with
    | none => ((out_degree g v : Nat) : ℚ)
    | some w => ((outEdges g v).map (fun e => w e.1)).sum

/-! ### Elementary matrix operations

Both matrix storage forms of the source support the same two cell
operations: accumulate (`m[i,j] += x`) and assign (`m[i,j] = x`).  Each
builder is embedded as the list of operations it performs in program
order. -/

/-- One elementary matrix operation. -/
inductive MOp (α : Type) where
  | incr (i j : Nat) (x : α)
  | assign (i j : Nat) (x : α)
deriving DecidableEq

/-- The row an operation writes to. -/
def MOp.row {α : Type} : MOp α → Nat
  | .incr i _ _ => i
  | .assign i _ _ => i

/-- The column an operation writes to. -/
def MOp.col {α : Type} : MOp α → Nat
  | .incr _ j _ => j
  | .assign _ j _ => j

/-- Dense matrices are total functions from positions to values. -/
def Mat (α : Type) : Type := Nat → Nat → α

/-- Execute one operation on a dense matrix. -/
def dstep {α : Type} [Add α] (m : Mat α) : MOp α → Mat α
  | .incr i j x => fun a b => if a = i ∧ b = j then m i j + x else m a b
  | .assign i j x => fun a b => if a = i ∧ b = j then x else m a b

/-- Execute a list of operations on a dense matrix, left to right. -/
def dapply {α : Type} [Add α] (ops : List (MOp α)) (m : Mat α) : Mat α :=
  ops.foldl dstep m

/-- Concatenate the per-vertex operation blocks, in vertex order.  This is
the shape shared by all three builders: `for v in g.vertices(): ...`. -/
def catMap {α : Type} (f : Nat → List (MOp α)) : List Nat → List (MOp α)
  | [] => []
  | v :: tl => f v ++ catMap f tl

/-! ### Sparse matrices

The sparse branch of the source builds a `scipy.sparse.lil_matrix`, reading
an absent entry as zero and storing updated entries; we model it as an
association list from positions to values. -/

/-- Sparse matrix: association list from positions to values. -/
def SMat (α : Type) : Type := List ((Nat × Nat) × α)

/-- Look up a stored entry. -/
def sfind {α : Type} (s : SMat α) (i j : Nat) : Option α :=
  (s.find? (fun p => decide (p.1.1 = i ∧ p.1.2 = j))).map (fun p => p.2)

/-- Read an entry of a sparse matrix; absent entries read as zero. -/
def sget {α : Type} [Zero α] (s : SMat α) (i j : Nat) : α :=
  (sfind s i j).getD 0

/-- Store an entry, replacing the first binding for the position if any. -/
def sset {α : Type} (s : SMat α) (i j : Nat) (x : α) : SMat α :=
  match s with
  | [] => [((i, j), x)]
  | p :: tl =>
    if p.1.1 = i ∧ p.1.2 = j then ((i, j), x) :: tl else p :: sset tl i j x

/-- Execute one operation on a sparse matrix. -/
def sstep {α : Type} [Zero α] [Add α] (s : SMat α) : MOp α → SMat α
  | .incr i j x => sset s i j (sget s i j + x)
  | .assign i j x => sset s i j x

/-- Execute a list of operations on a sparse matrix, left to right. -/
def sapply {α : Type} [Zero α] [Add α] (ops : List (MOp α)) (s : SMat α) : SMat α :=
  ops.foldl sstep s

/-! ### Laplacian cell values

The normalized Laplacian accumulates floating-point terms of the shape
`-w / sqrt(d * d2)`; every term written to a fixed cell shares the same
radicand `d * d2` (it is determined by the row and column degrees).  We
therefore represent a cell exactly as `⟨q, r, k⟩`: the accumulated signed
numerator `q`, the shared radicand `r`, and the number `k` of terms
accumulated so far, denoting the value `q / sqrt r` when `k > 0` and the
untouched zero when `k = 0`.  Plain rational cells (the unnormalized
branch, the assigned diagonal) carry radicand 1, so their value is `q`
itself.  A touched cell with radicand `r ≤ 0` denotes a non-finite or
undefined floating-point value (division by `sqrt 0`, or `sqrt` of a
negative number). -/

structure NVal where
  q : ℚ
  r : ℚ
  k : Nat
deriving DecidableEq

/-- Accumulation of cell values: numerators and term counts add, the
radicand of the first accumulated term is kept. -/
def NVal.add (a b : NVal) : NVal :=
  ⟨a.q + b.q, if a.k = 0 then b.r else a.r, a.k + b.k⟩

instance : Add NVal := ⟨NVal.add⟩

/-- The untouched zero cell. -/
def NVal.zero : NVal := ⟨0, 0, 0⟩

instance : Zero NVal := ⟨NVal.zero⟩

/-- An exact rational cell holding the value `x`. -/
def NVal.ofQ (x : ℚ) : NVal := ⟨x, 1, 1⟩

/-- A cell denotes a finite value exactly when it is untouched or its
radicand is positive. -/
def NVal.IsFinite (a : NVal) : Prop := a.k = 0 ∨ 0 < a.r

/-- A cell denotes the value zero: untouched, or finite with zero
numerator. -/
def NVal.IsZeroVal (a : NVal) : Prop := a.k = 0 ∨ (0 < a.r ∧ a.q = 0)

instance (a : NVal) : Decidable a.IsFinite := by unfold NVal.IsFinite; infer_instance

instance (a : NVal) : Decidable a.IsZeroVal := by unfold NVal.IsZeroVal; infer_instance

/-! ### The three builders

Each builder is the operation list the source emits, in program order,
interpreted densely (`fun i j => ...`, the `sparse=False` branch) and
sparsely (association list, the `sparse=True` branch).  The vertex filter
case of the source only re-derives a dense vertex index; we model
unfiltered graphs, whose vertex index is the identity. -/

/-- The operations one vertex contributes to `adjacency`: for every
out-edge `e` of `v`, accumulate the edge weight (1 if unweighted) at
`(v, target e)`. -/
def adjBlock (g : Graph) (weight : Option (Nat → ℚ)) (v : Nat) : List (MOp ℚ) :=
  (outEdges g v).map (fun e => MOp.incr v e.2 (wOf weight e.1))

/-- Operations of `adjacency`, over all vertices in order. -/
def adjOps (g : Graph) (weight : Option (Nat → ℚ)) : List (MOp ℚ) :=
  catMap (adjBlock g weight) (List.range g.n)

/-- Dense adjacency matrix (`sparse=False` branch). -/
def adjacency (g : Graph) (weight : Option (Nat → ℚ)) : Mat ℚ :=
  dapply (adjOps g weight) (fun _ _ => 0)

/-- Sparse adjacency matrix (`sparse=True` branch). -/
def adjacencyS (g : Graph) (weight : Option (Nat → ℚ)) : SMat ℚ :=
  sapply (adjOps g weight) []

/-- The value one out-edge `e` of `v` contributes to the Laplacian:
unnormalized, the plain rational `-w`; normalized, `-w / sqrt(d * d2)`
(the cell `⟨-w, d * d2, 1⟩`) where `d2` is the degree of the target of
`e`. -/
def lapTerm (g : Graph) (deg : String) (normalized : Bool)
    (weight : Option (Nat → ℚ)) (v : Nat) (e : Nat × Nat) : NVal :=
  if normalized then
    ⟨-(wOf weight e.1), _get_deg g v deg weight * _get_deg g e.2 deg weight, 1⟩
  else
    NVal.ofQ (-(wOf weight e.1))

/-- The diagonal operation emitted after the edge loop of one vertex:
unnormalized, assign the degree `d`; normalized, assign 1 when `d > 0` and
nothing otherwise. -/
def lapDiagOps (g : Graph) (deg : String) (normalized : Bool)
    (weight : Option (Nat → ℚ)) (v : Nat) : List (MOp NVal) :=
  if normalized then
    (if 0 < _get_deg g v deg weight then [MOp.assign v v (NVal.ofQ 1)] else [])
  else [MOp.assign v v (NVal.ofQ (_get_deg g v deg weight))]

/-- The operations one vertex contributes to `laplacian`: accumulate one
term per out-edge at `(v, target)`, then the diagonal operation. -/
def lapBlock (g : Graph) (deg : String) (normalized : Bool)
    (weight : Option (Nat → ℚ)) (v : Nat) : List (MOp NVal) :=
  (outEdges g v).map (fun e => MOp.incr v e.2 (lapTerm g deg normalized weight v e))
  ++ lapDiagOps g deg normalized weight v

/-- Operations of `laplacian`, over all vertices in order. -/
def lapOps (g : Graph) (deg : String) (normalized : Bool)
    (weight : Option (Nat → ℚ)) : List (MOp NVal) :=
  catMap (lapBlock g deg normalized weight) (List.range g.n)

/-- Dense Laplacian matrix (`sparse=False` branch). -/
def laplacian (g : Graph) (deg : String) (normalized : Bool)
    (weight : Option (Nat → ℚ)) : Mat NVal :=
  dapply (lapOps g deg normalized weight) (fun _ _ => NVal.zero)

/-- Sparse Laplacian matrix (`sparse=True` branch). -/
def laplacianS (g : Graph) (deg : String) (normalized : Bool)
    (weight : Option (Nat → ℚ)) : SMat NVal :=
  sapply (lapOps g deg normalized weight) []

/-- Modelled from the spec: the `_limit_args` decorator wrapped around
`laplacian` lives in the top-level `graph_tool` module, outside the source
under verification.  Per the spec it validates `deg` against
{"total", "in", "out"} once, before any matrix work begins, raising
`InvalidArgument` on failure so that no partial matrix is returned. -/
def laplacianChecked (g : Graph) (deg : String) (normalized : Bool)
    (weight : Option (Nat → ℚ)) : Except String (Mat NVal) :=
  if deg = "total" ∨ deg = "in" ∨ deg = "out" then
    Except.ok (laplacian g deg normalized weight)
  else
    Except.error "InvalidArgument"

/-- The operations one vertex contributes to `incidence`: on a directed
graph, accumulate -1 at `(v, edge index)` for each out-edge and +1 for
each in-edge; on an undirected graph, accumulate +1 at `(v, edge index)`
for each incident edge. -/
def incBlock (g : Graph) (v : Nat) : List (MOp ℚ) :=
  if g.directed then
    (outEdges g v).map (fun e => MOp.incr v e.1 (-1))
    ++ (inEdges g v).map (fun e => MOp.incr v e.1 1)
  else
    (outEdges g v).map (fun e => MOp.incr v e.1 1)

/-- Operations of `incidence`, over all vertices in order. -/
def incOps (g : Graph) : List (MOp ℚ) :=
  catMap (incBlock g) (List.range g.n)

/-- Dense incidence matrix (`sparse=False` branch). -/
def incidence (g : Graph) : Mat ℚ :=
  dapply (incOps g) (fun _ _ => 0)

/-- Sparse incidence matrix (`sparse=True` branch). -/
def incidenceS (g : Graph) : SMat ℚ :=
  sapply (incOps g) []

/-- The directed multiplicity of the arc `(u, v)`: how many stored arcs
are exactly `(u, v)`. -/
def edgeMultiplicity (g : Graph) (u v : Nat) : Nat :=
  (g.arcs.filter (fun a => decide (a = (u, v)))).length

/-- Total weight (count, if unweighted) of the stored arcs `(u, v)`. -/
def edgeWeightTotal (g : Graph) (weight : Option (Nat → ℚ)) (u v : Nat) : ℚ :=
  (((arcsIdx g).filter (fun e => decide (e.2.1 = u ∧ e.2.2 = v))).map
    (fun e => wOf weight e.1)).sum

/-! ### Basic lemmas about the operation interpreter -/

theorem dapply_nil {α : Type} [Add α] (m : Mat α) : dapply [] m = m := rfl

theorem dapply_cons {α : Type} [Add α] (op : MOp α) (ops : List (MOp α)) (m : Mat α) :
    dapply (op :: ops) m = dapply ops (dstep m op) := rfl

theorem dapply_append {α : Type} [Add α] (A B : List (MOp α)) (m : Mat α) :
    dapply (A ++ B) m = dapply B (dapply A m) := by
  simp [dapply, List.foldl_append]

/-- An operation list that never writes row `i` leaves row `i` unchanged. -/
theorem dapply_notRow {α : Type} [Add α] (ops : List (MOp α)) (i : Nat)
    (h : ∀ op ∈ ops, op.row ≠ i) (m : Mat α) (j : Nat) :
    dapply ops m i j = m i j := by
  induction ops generalizing m with
  | nil => rfl
  | cons op tl ih =>
    rw [dapply_cons, ih (fun o ho => h o (List.mem_cons_of_mem _ ho))]
    have hop : op.row ≠ i := h op (List.mem_cons_self _ _)
    cases op with
    | incr a b x =>
      simp only [MOp.row] at hop
      have hne : ¬ (i = a) := fun hia => hop hia.symm
      simp [dstep, hne]
    | assign a b x =>
      simp only [MOp.row] at hop
      have hne : ¬ (i = a) := fun hia => hop hia.symm
      simp [dstep, hne]

/-- An operation list that never writes column `j` leaves cell `(i, j)`
unchanged. -/
theorem dapply_notCol {α : Type} [Add α] (ops : List (MOp α)) (j : Nat)
    (h : ∀ op ∈ ops, op.col ≠ j) (m : Mat α) (i : Nat) :
    dapply ops m i j = m i j := by
  induction ops generalizing m with
  | nil => rfl
  | cons op tl ih =>
    rw [dapply_cons, ih (fun o ho => h o (List.mem_cons_of_mem _ ho))]
    have hop : op.col ≠ j := h op (List.mem_cons_self _ _)
    cases op with
    | incr a b x =>
      simp only [MOp.col] at hop
      have hne : ¬ (j = b) := fun hjb => hop hjb.symm
      simp [dstep, hne]
    | assign a b x =>
      simp only [MOp.col] at hop
      have hne : ¬ (j = b) := fun hjb => hop hjb.symm
      simp [dstep, hne]

/-- Running an operation list that only writes row `i` on two matrices
agreeing on row `i` yields the same row `i`. -/
theorem dapply_rowAgree {α : Type} [Add α] (ops : List (MOp α)) (i : Nat)
    (h : ∀ op ∈ ops, op.row = i) (m m2 : Mat α)
    (hag : ∀ b, m i b = m2 i b) (j : Nat) :
    dapply ops m i j = dapply ops m2 i j := by
  induction ops generalizing m m2 with
  | nil => exact hag j
  | cons op tl ih =>
    rw [dapply_cons, dapply_cons]
    refine ih (fun o ho => h o (List.mem_cons_of_mem _ ho)) _ _ (fun b => ?_)
    cases op with
    | incr a c x =>
      by_cases hb : i = a ∧ b = c
      · obtain ⟨h1, h2⟩ := hb
        subst h1; subst h2
        simp [dstep, hag]
      · simp only [dstep]
        rw [if_neg hb, if_neg hb]
        exact hag b
    | assign a c x =>
      by_cases hb : i = a ∧ b = c
      · obtain ⟨h1, h2⟩ := hb
        subst h1; subst h2
        simp [dstep]
      · simp only [dstep]
        rw [if_neg hb, if_neg hb]
        exact hag b

/-- Every operation in a `catMap` comes from one of the blocks. -/
theorem mem_catMap {α : Type} (f : Nat → List (MOp α)) (l : List Nat) (op : MOp α)
    (h : op ∈ catMap f l) : ∃ v ∈ l, op ∈ f v := by
  induction l with
  | nil => simp [catMap] at h
  | cons v tl ih =>
    simp only [catMap, List.mem_append] at h
    rcases h with h | h
    · exact ⟨v, List.mem_cons_self _ _, h⟩
    · obtain ⟨u, hu, hop⟩ := ih h
      exact ⟨u, List.mem_cons_of_mem _ hu, hop⟩

theorem catMap_append {α : Type} (f : Nat → List (MOp α)) (A B : List Nat) :
    catMap f (A ++ B) = catMap f A ++ catMap f B := by
  induction A with
  | nil => rfl
  | cons v tl ih => simp [catMap, ih]

/-- The cell `(i, j)` of the full vertex loop is determined by the block of
vertex `i` alone, run on the initial matrix: blocks of other vertices write
only their own rows. -/
theorem dapply_catMap_cell {α : Type} [Add α] (f : Nat → List (MOp α))
    (hrows : ∀ v, ∀ op ∈ f v, op.row = v) (n i : Nat) (hi : i < n)
    (z : Mat α) (j : Nat) :
    dapply (catMap f (List.range n)) z i j = dapply (f i) z i j := by
  induction n with
  | zero => omega
  | succ mval ih =>
    rw [List.range_succ, catMap_append, dapply_append]
    have hm : catMap f [mval] = f mval ++ [] := rfl
    rw [hm, List.append_nil]
    by_cases him : i = mval
    · subst him
      refine dapply_rowAgree (f i) i (hrows i) _ z (fun b => ?_) j
      refine dapply_notRow _ i (fun op hop => ?_) z b
      obtain ⟨v, hv, hopv⟩ := mem_catMap f _ op hop
      rw [hrows v op hopv]
      exact Nat.ne_of_lt (List.mem_range.mp hv)
    · have hilt : i < mval := by omega
      rw [dapply_notRow (f mval) i (fun op hop => by rw [hrows mval op hop]; omega) _ j]
      exact ih hilt

/-- A row outside the vertex range is never written. -/
theorem dapply_catMap_outOfRange {α : Type} [Add α] (f : Nat → List (MOp α))
    (hrows : ∀ v, ∀ op ∈ f v, op.row = v) (n i : Nat) (hi : n ≤ i)
    (z : Mat α) (j : Nat) :
    dapply (catMap f (List.range n)) z i j = z i j := by
  refine dapply_notRow _ i (fun op hop => ?_) z j
  obtain ⟨v, hv, hopv⟩ := mem_catMap f _ op hop
  rw [hrows v op hopv]
  have := List.mem_range.mp hv
  omega

/-- Cell formula for a block of accumulations within one row: the cell
`(i, j)` folds the contributions whose target column is `j`. -/
theorem dapply_incrBlock {α β : Type} [Add α] (L : List β) (t : β → Nat)
    (x : β → α) (i : Nat) (m : Mat α) (j : Nat) :
    dapply (L.map (fun e => MOp.incr i (t e) (x e))) m i j
      = ((L.filter (fun e => decide (t e = j))).map x).foldl (fun a b => a + b) (m i j) := by
  induction L generalizing m with
  | nil => rfl
  | cons e tl ih =>
    rw [List.map_cons, dapply_cons]
    by_cases hej : t e = j
    · rw [List.filter_cons_of_pos (by simp [hej]), List.map_cons, List.foldl_cons]
      rw [ih]
      have : dstep m (MOp.incr i (t e) (x e)) i j = m i j + x e := by
        simp [dstep, hej]
      rw [this]
    · rw [List.filter_cons_of_neg (by simp [hej])]
      rw [ih]
      have hne : ¬ (j = t e) := fun h => hej h.symm
      have : dstep m (MOp.incr i (t e) (x e)) i j = m i j := by
        simp [dstep, hne]
      rw [this]

/-! ### Sparse and dense interpretation agree -/

/-- The empty sparse matrix reads as the zero matrix. -/
theorem sget_nil {α : Type} [Zero α] (i j : Nat) : sget ([] : SMat α) i j = 0 := rfl

theorem sget_cons {α : Type} [Zero α] (p : (Nat × Nat) × α) (tl : SMat α) (a b : Nat) :
    sget (p :: tl) a b = if p.1.1 = a ∧ p.1.2 = b then p.2 else sget tl a b := by
  by_cases h : p.1.1 = a ∧ p.1.2 = b
  · simp [sget, sfind, List.find?, h]
  · simp [sget, sfind, List.find?, h]

theorem sget_sset {α : Type} [Zero α] (s : SMat α) (i j : Nat) (x : α) (a b : Nat) :
    sget (sset s i j x) a b = if a = i ∧ b = j then x else sget s a b := by
  induction s with
  | nil =>
    rw [show sset ([] : SMat α) i j x = [((i, j), x)] from rfl, sget_cons]
    by_cases hab : a = i ∧ b = j
    · rw [if_pos ⟨hab.1.symm, hab.2.symm⟩, if_pos hab]
    · have hne : ¬ (i = a ∧ j = b) := by
        intro hc
        exact hab ⟨hc.1.symm, hc.2.symm⟩
      rw [if_neg hne, if_neg hab]
  | cons p tl ih =>
    by_cases hp : p.1.1 = i ∧ p.1.2 = j
    · rw [show sset (p :: tl) i j x = ((i, j), x) :: tl from by rw [sset, if_pos hp],
        sget_cons]
      by_cases hab : a = i ∧ b = j
      · rw [if_pos ⟨hab.1.symm, hab.2.symm⟩, if_pos hab]
      · have hne : ¬ (((i, j), x).1.1 = a ∧ ((i, j), x).1.2 = b) := by
          intro hc
          exact hab ⟨hc.1.symm, hc.2.symm⟩
        rw [if_neg hne, if_neg hab, sget_cons]
        have hne2 : ¬ (p.1.1 = a ∧ p.1.2 = b) := by
          intro hc
          exact hab ⟨hc.1.symm.trans hp.1, hc.2.symm.trans hp.2⟩
        rw [if_neg hne2]
    · rw [show sset (p :: tl) i j x = p :: sset tl i j x from by rw [sset, if_neg hp],
        sget_cons]
      by_cases hq : p.1.1 = a ∧ p.1.2 = b
      · have hab : ¬ (a = i ∧ b = j) := by
          intro hc
          exact hp ⟨hq.1.trans hc.1, hq.2.trans hc.2⟩
        rw [if_pos hq, if_neg hab, sget_cons, if_pos hq]
      · rw [if_neg hq, ih]
        by_cases hab : a = i ∧ b = j
        · rw [if_pos hab, if_pos hab]
        · rw [if_neg hab, if_neg hab, sget_cons, if_neg hq]

/-- One operation preserves entrywise agreement between the sparse and the
dense interpretation. -/
theorem sstep_dstep_agree {α : Type} [Zero α] [Add α] (s : SMat α) (m : Mat α)
    (hag : ∀ i j, sget s i j = m i j) (op : MOp α) :
    ∀ i j, sget (sstep s op) i j = dstep m op i j := by
  intro i j
  cases op with
  | incr a b x =>
    have hd : dstep m (MOp.incr a b x) i j
        = if i = a ∧ j = b then m a b + x else m i j := rfl
    rw [sstep, sget_sset, hd]
    by_cases hab : i = a ∧ j = b
    · rw [if_pos hab, if_pos hab, hag]
    · rw [if_neg hab, if_neg hab, hag]
  | assign a b x =>
    have hd : dstep m (MOp.assign a b x) i j
        = if i = a ∧ j = b then x else m i j := rfl
    rw [sstep, sget_sset, hd]
    by_cases hab : i = a ∧ j = b
    · rw [if_pos hab, if_pos hab]
    · rw [if_neg hab, if_neg hab, hag]

/-- The sparse and the dense interpretation of one operation list agree
entry by entry whenever their starting points do. -/
theorem sapply_dapply_agree {α : Type} [Zero α] [Add α] (ops : List (MOp α))
    (s : SMat α) (m : Mat α) (hag : ∀ i j, sget s i j = m i j) :
    ∀ i j, sget (sapply ops s) i j = dapply ops m i j := by
  induction ops generalizing s m with
  | nil => exact hag
  | cons op tl ih =>
    exact ih (sstep s op) (dstep m op) (sstep_dstep_agree s m hag op)

/-! ### Arithmetic on folds of cell contributions -/

theorem foldl_add_eq_sum (L : List ℚ) (a : ℚ) :
    L.foldl (fun x y => x + y) a = a + L.sum := by
  induction L generalizing a with
  | nil => simp
  | cons x tl ih =>
    rw [List.foldl_cons, List.sum_cons, ih]
    ring

theorem nval_add_q (a b : NVal) : (a + b).q = a.q + b.q := rfl

theorem nval_add_k (a b : NVal) : (a + b).k = a.k + b.k := rfl

theorem nval_foldl_q (L : List NVal) (a : NVal) :
    (L.foldl (fun x y => x + y) a).q = a.q + (L.map NVal.q).sum := by
  induction L generalizing a with
  | nil => simp
  | cons x tl ih =>
    rw [List.foldl_cons, List.map_cons, List.sum_cons, ih, nval_add_q]
    ring

theorem nval_foldl_k (L : List NVal) (a : NVal) :
    (L.foldl (fun x y => x + y) a).k = a.k + (L.map NVal.k).sum := by
  induction L generalizing a with
  | nil => simp
  | cons x tl ih =>
    rw [List.foldl_cons, List.map_cons, List.sum_cons, ih, nval_add_k]
    omega

/-- Folding terms that all carry the radicand `R` preserves the invariant
that a touched cell carries the radicand `R`. -/
theorem nval_foldl_r (L : List NVal) (R : ℚ) (hL : ∀ x ∈ L, x.r = R) (a : NVal)
    (ha : a.k = 0 ∨ a.r = R) :
    (L.foldl (fun x y => x + y) a).k = 0 ∨ (L.foldl (fun x y => x + y) a).r = R := by
  induction L generalizing a with
  | nil => exact ha
  | cons x tl ih =>
    rw [List.foldl_cons]
    refine ih (fun y hy => hL y (List.mem_cons_of_mem _ hy)) (a + x) ?_
    right
    have hx : x.r = R := hL x (List.mem_cons_self _ _)
    show (NVal.add a x).r = R
    rw [NVal.add]
    rcases ha with h0 | hr
    · simp [h0, hx]
    · by_cases hk : a.k = 0
      · simp [hk, hx]
      · simp [hk, hr]

/-! ### Lemmas about the edge enumeration -/

theorem enumF_snd_mem {β : Type} (L : List β) (s : Nat) (p : Nat × β)
    (h : p ∈ enumF s L) : p.2 ∈ L := by
  induction L generalizing s with
  | nil => simp [enumF] at h
  | cons a tl ih =>
    simp only [enumF, List.mem_cons] at h
    rcases h with h | h
    · rw [h]
      exact List.mem_cons_self _ _
    · exact List.mem_cons_of_mem _ (ih (s + 1) h)

/-- The entries of the enumeration that carry a fixed index `c` and pass a
filter: there is at most one, the one at list position `c - s`. -/
theorem length_enumF_filter {β : Type} (L : List β) (s c : Nat) (p : Nat × β → Bool) :
    ((enumF s L).filter (fun e => decide (e.1 = c) && p e)).length
      = if hsc : s ≤ c ∧ c - s < L.length then
          (if p (c, L.get ⟨c - s, hsc.2⟩) then 1 else 0)
        else 0 := by
  induction L generalizing s with
  | nil =>
    simp [enumF]
  | cons a tl ih =>
    rw [enumF]
    by_cases hsc : s = c
    · subst hsc
      have hcond : ∀ b : Bool, (decide ((s, a).1 = s) && b) = b := by
        intro b
        simp
      rw [List.filter_cons]
      have hz : ((enumF (s + 1) tl).filter (fun e => decide (e.1 = s) && p e)).length = 0 := by
        rw [ih (s + 1)]
        have : ¬ (s + 1 ≤ s ∧ s - (s + 1) < tl.length) := by omega
        rw [dif_neg this]
      have hif : s ≤ s ∧ s - s < (a :: tl).length := by
        simp
      rw [dif_pos hif]
      have hget : (a :: tl).get ⟨s - s, hif.2⟩ = a := by
        simp [Nat.sub_self]
      rw [hget]
      by_cases hpa : p (s, a)
      · rw [if_pos (by simp [hpa]), List.length_cons, hz, if_pos hpa]
      · rw [if_neg (by simp [hpa]), hz, if_neg hpa]
    · rw [List.filter_cons]
      have hcond : ¬ ((decide ((s, a).1 = c) && p (s, a)) = true) := by
        simp [hsc]
      rw [if_neg hcond, ih (s + 1)]
      by_cases h1 : s + 1 ≤ c ∧ c - (s + 1) < tl.length
      · have h2 : s ≤ c ∧ c - s < (a :: tl).length := by
          constructor
          · omega
          · simp only [List.length_cons]
            omega
        rw [dif_pos h1, dif_pos h2]
        have hpos : 0 < c - s := by omega
        have hget : (a :: tl).get ⟨c - s, h2.2⟩ = tl.get ⟨c - (s + 1), h1.2⟩ := by
          have hcs : c - s = (c - (s + 1)) + 1 := by omega
          simp only [hcs, List.get_cons_succ]
        rw [hget]
      · have h2 : ¬ (s ≤ c ∧ c - s < (a :: tl).length) := by
          simp only [List.length_cons]
          omega
        rw [dif_neg h1, dif_neg h2]

/-! ### Bucketing a row of contributions by target column -/

/-- Summing, over all columns `j` of the row other than `v`, the
contributions whose target is `j` collects exactly the contributions whose
target differs from `v`, provided all targets are in range. -/
theorem sum_erase_buckets {β : Type} (L : List β) (t : β → Nat) (f : β → ℚ)
    (n v : Nat) (hb : ∀ e ∈ L, t e < n) :
    ∑ j ∈ (Finset.range n).erase v,
        ((L.filter (fun e => decide (t e = j))).map f).sum
      = ((L.filter (fun e => !(decide (t e = v)))).map f).sum := by
  induction L with
  | nil => simp
  | cons e tl ih =>
    have hbt : ∀ x ∈ tl, t x < n := fun x hx => hb x (List.mem_cons_of_mem _ hx)
    have hsplit : ∀ j : Nat,
        (((e :: tl).filter (fun x => decide (t x = j))).map f).sum
          = (if t e = j then f e else 0)
            + ((tl.filter (fun x => decide (t x = j))).map f).sum := by
      intro j
      rw [List.filter_cons]
      by_cases hj : t e = j
      · rw [if_pos (by simp [hj]), List.map_cons, List.sum_cons, if_pos hj]
      · rw [if_neg (by simp [hj]), if_neg hj, zero_add]
    calc
      ∑ j ∈ (Finset.range n).erase v,
          (((e :: tl).filter (fun x => decide (t x = j))).map f).sum
        = ∑ j ∈ (Finset.range n).erase v,
            ((if t e = j then f e else 0)
              + ((tl.filter (fun x => decide (t x = j))).map f).sum) := by
          exact Finset.sum_congr rfl (fun j _ => hsplit j)
      _ = (∑ j ∈ (Finset.range n).erase v, (if t e = j then f e else 0))
            + ∑ j ∈ (Finset.range n).erase v,
                ((tl.filter (fun x => decide (t x = j))).map f).sum := by
          rw [Finset.sum_add_distrib]
      _ = (∑ j ∈ (Finset.range n).erase v, (if t e = j then f e else 0))
            + ((tl.filter (fun x => !(decide (t x = v)))).map f).sum := by
          rw [ih hbt]
      _ = (((e :: tl).filter (fun x => !(decide (t x = v)))).map f).sum := by
          rw [Finset.sum_ite_eq, List.filter_cons]
          by_cases hv : t e = v
          · have hmem : t e ∉ (Finset.range n).erase v := by
              simp [hv]
            rw [if_neg hmem]
            have hfc : (!(decide (t e = v))) = false := by
              simp [hv]
            rw [hfc]
            simp
          · have hmem : t e ∈ (Finset.range n).erase v := by
              have hlt := hb e (List.mem_cons_self _ _)
              simp [Finset.mem_erase, Finset.mem_range, hv, hlt]
            rw [if_pos hmem]
            have hfc : (!(decide (t e = v))) = true := by
              simp [hv]
            rw [hfc]
            simp

/-! ### Structure of the edge traversals -/

/-- Every traversed out-edge of `v` comes from a stored arc touching `v`,
with the traversal target as the other endpoint. -/
theorem outEdges_arc (g : Graph) (v : Nat) (e : Nat × Nat) (h : e ∈ outEdges g v) :
    (v, e.2) ∈ g.arcs ∨ (e.2, v) ∈ g.arcs := by
  rw [outEdges] at h
  by_cases hd : g.directed
  · rw [if_pos hd] at h
    obtain ⟨p, hp, hpe⟩ := List.mem_map.mp h
    have hsrc := of_decide_eq_true (List.mem_filter.mp hp).2
    have hmem : p.2 ∈ g.arcs := enumF_snd_mem g.arcs 0 p (List.mem_filter.mp hp).1
    left
    have h2 : e.2 = p.2.2 := by rw [← hpe]
    rw [h2, ← hsrc]
    exact hmem
  · rw [if_neg hd] at h
    rcases List.mem_append.mp h with h | h
    · obtain ⟨p, hp, hpe⟩ := List.mem_map.mp h
      have hsrc := of_decide_eq_true (List.mem_filter.mp hp).2
      have hmem : p.2 ∈ g.arcs := enumF_snd_mem g.arcs 0 p (List.mem_filter.mp hp).1
      left
      have h2 : e.2 = p.2.2 := by rw [← hpe]
      rw [h2, ← hsrc]
      exact hmem
    · obtain ⟨p, hp, hpe⟩ := List.mem_map.mp h
      have htgt := of_decide_eq_true (List.mem_filter.mp hp).2
      have hmem : p.2 ∈ g.arcs := enumF_snd_mem g.arcs 0 p (List.mem_filter.mp hp).1
      right
      have h2 : e.2 = p.2.1 := by rw [← hpe]
      rw [h2, ← htgt]
      exact hmem

/-- In a valid graph all traversal targets are vertices. -/
theorem outEdges_target_lt (g : Graph) (hg : g.Valid) (v : Nat) (e : Nat × Nat)
    (h : e ∈ outEdges g v) : e.2 < g.n := by
  rcases outEdges_arc g v e h with ha | ha
  · exact (hg _ ha).2
  · exact (hg _ ha).1

/-- A vertex with no stored self-loop arc has no out-edge traversal entry
targeting itself. -/
theorem outEdges_no_loop (g : Graph) (v : Nat) (hloop : (v, v) ∉ g.arcs)
    (e : Nat × Nat) (h : e ∈ outEdges g v) : e.2 ≠ v := by
  intro hev
  rcases outEdges_arc g v e h with ha | ha
  · rw [hev] at ha
    exact hloop ha
  · rw [hev] at ha
    exact hloop ha

/-! ### Cell formulas for the three builders -/

theorem sum_map_constQ {β : Type} (L : List β) (q : ℚ) :
    (L.map (fun _ => q)).sum = (L.length : ℚ) * q := by
  induction L with
  | nil => simp
  | cons x tl ih =>
    rw [List.map_cons, List.sum_cons, ih, List.length_cons]
    push_cast
    ring

theorem adjBlock_rows (g : Graph) (weight : Option (Nat → ℚ)) (v : Nat) :
    ∀ op ∈ adjBlock g weight v, MOp.row op = v := by
  intro op hop
  obtain ⟨e, _, hope⟩ := List.mem_map.mp hop
  rw [← hope]
  rfl

/-- The cell `(u, v)` of the adjacency matrix accumulates the weights of
the out-edge traversal entries of `u` targeting `v`. -/
theorem adjacency_cell (g : Graph) (weight : Option (Nat → ℚ)) (u : Nat)
    (hu : u < g.n) (v : Nat) :
    adjacency g weight u v
      = (((outEdges g u).filter (fun e => decide (e.2 = v))).map
          (fun e => wOf weight e.1)).sum := by
  rw [adjacency, adjOps,
    dapply_catMap_cell _ (adjBlock_rows g weight) g.n u hu _ v, adjBlock,
    dapply_incrBlock (outEdges g u) (fun e => e.2) (fun e => wOf weight e.1) u _ v,
    foldl_add_eq_sum]
  exact zero_add _

/-- Rows above the vertex count are identically zero. -/
theorem adjacency_cell_high (g : Graph) (weight : Option (Nat → ℚ)) (u : Nat)
    (hu : g.n ≤ u) (v : Nat) : adjacency g weight u v = 0 := by
  rw [adjacency, adjOps,
    dapply_catMap_outOfRange _ (adjBlock_rows g weight) g.n u hu _ v]

theorem lapDiagOps_shape (g : Graph) (deg : String) (normalized : Bool)
    (weight : Option (Nat → ℚ)) (v : Nat) (op : MOp NVal)
    (hop : op ∈ lapDiagOps g deg normalized weight v) :
    MOp.row op = v ∧ MOp.col op = v := by
  rw [lapDiagOps] at hop
  by_cases hn : normalized
  · rw [if_pos hn] at hop
    by_cases hd : 0 < _get_deg g v deg weight
    · rw [if_pos hd, List.mem_singleton] at hop
      rw [hop]
      exact ⟨rfl, rfl⟩
    · rw [if_neg hd] at hop
      simp at hop
  · rw [if_neg hn, List.mem_singleton] at hop
    rw [hop]
    exact ⟨rfl, rfl⟩

theorem lapBlock_rows (g : Graph) (deg : String) (normalized : Bool)
    (weight : Option (Nat → ℚ)) (v : Nat) :
    ∀ op ∈ lapBlock g deg normalized weight v, MOp.row op = v := by
  intro op hop
  rw [lapBlock] at hop
  rcases List.mem_append.mp hop with h | h
  · obtain ⟨e, _, hope⟩ := List.mem_map.mp h
    rw [← hope]
    rfl
  · exact (lapDiagOps_shape g deg normalized weight v op h).1

/-- Off-diagonal Laplacian cell: the fold of the contributions of the
out-edge traversal entries of `v` targeting `j`. -/
theorem laplacian_cell_offdiag (g : Graph) (deg : String) (normalized : Bool)
    (weight : Option (Nat → ℚ)) (v : Nat) (hv : v < g.n) (j : Nat) (hj : j ≠ v) :
    laplacian g deg normalized weight v j
      = (((outEdges g v).filter (fun e => decide (e.2 = j))).map
          (lapTerm g deg normalized weight v)).foldl (fun a b => a + b) NVal.zero := by
  rw [laplacian, lapOps,
    dapply_catMap_cell _ (lapBlock_rows g deg normalized weight) g.n v hv _ j,
    lapBlock, dapply_append]
  rw [dapply_notCol _ j (fun op hop => by
    rw [(lapDiagOps_shape g deg normalized weight v op hop).2]
    exact fun h => hj h.symm)]
  rw [dapply_incrBlock (outEdges g v) (fun e => e.2)
    (lapTerm g deg normalized weight v) v _ j]

/-- Unnormalized Laplacian diagonal: the degree is assigned, overwriting
any self-loop accumulation. -/
theorem laplacian_cell_diag_unnorm (g : Graph) (deg : String)
    (weight : Option (Nat → ℚ)) (v : Nat) (hv : v < g.n) :
    laplacian g deg false weight v v = NVal.ofQ (_get_deg g v deg weight) := by
  rw [laplacian, lapOps,
    dapply_catMap_cell _ (lapBlock_rows g deg false weight) g.n v hv _ v,
    lapBlock, dapply_append, lapDiagOps, if_neg (by simp)]
  have : dapply [MOp.assign v v (NVal.ofQ (_get_deg g v deg weight))]
      (dapply ((outEdges g v).map
        (fun e => MOp.incr v e.2 (lapTerm g deg false weight v e))) (fun _ _ => NVal.zero)) v v
      = NVal.ofQ (_get_deg g v deg weight) := by
    simp [dapply, dstep]
  exact this

/-- Normalized Laplacian diagonal at a vertex of positive degree: assigned
the exact value 1, overwriting any self-loop accumulation. -/
theorem laplacian_cell_diag_norm_pos (g : Graph) (deg : String)
    (weight : Option (Nat → ℚ)) (v : Nat) (hv : v < g.n)
    (hd : 0 < _get_deg g v deg weight) :
    laplacian g deg true weight v v = NVal.ofQ 1 := by
  rw [laplacian, lapOps,
    dapply_catMap_cell _ (lapBlock_rows g deg true weight) g.n v hv _ v,
    lapBlock, dapply_append, lapDiagOps, if_pos rfl, if_pos hd]
  have : dapply [MOp.assign v v (NVal.ofQ 1)]
      (dapply ((outEdges g v).map
        (fun e => MOp.incr v e.2 (lapTerm g deg true weight v e))) (fun _ _ => NVal.zero)) v v
      = NVal.ofQ 1 := by
    simp [dapply, dstep]
  exact this

/-- Normalized Laplacian diagonal at a vertex of non-positive degree: no
assignment happens, only self-loop contributions accumulate. -/
theorem laplacian_cell_diag_norm_nonpos (g : Graph) (deg : String)
    (weight : Option (Nat → ℚ)) (v : Nat) (hv : v < g.n)
    (hd : ¬ 0 < _get_deg g v deg weight) :
    laplacian g deg true weight v v
      = (((outEdges g v).filter (fun e => decide (e.2 = v))).map
          (lapTerm g deg true weight v)).foldl (fun a b => a + b) NVal.zero := by
  rw [laplacian, lapOps,
    dapply_catMap_cell _ (lapBlock_rows g deg true weight) g.n v hv _ v,
    lapBlock, dapply_append, lapDiagOps, if_pos rfl, if_neg hd]
  rw [dapply_nil]
  rw [dapply_incrBlock (outEdges g v) (fun e => e.2)
    (lapTerm g deg true weight v) v _ v]

/-- Laplacian rows above the vertex count are identically zero. -/
theorem laplacian_cell_high (g : Graph) (deg : String) (normalized : Bool)
    (weight : Option (Nat → ℚ)) (v : Nat) (hv : g.n ≤ v) (j : Nat) :
    laplacian g deg normalized weight v j = NVal.zero := by
  rw [laplacian, lapOps,
    dapply_catMap_outOfRange _ (lapBlock_rows g deg normalized weight) g.n v hv _ j]

theorem incBlock_rows (g : Graph) (v : Nat) :
    ∀ op ∈ incBlock g v, MOp.row op = v := by
  intro op hop
  rw [incBlock] at hop
  by_cases hd : g.directed
  · rw [if_pos hd] at hop
    rcases List.mem_append.mp hop with h | h
    · obtain ⟨e, _, hope⟩ := List.mem_map.mp h
      rw [← hope]
      rfl
    · obtain ⟨e, _, hope⟩ := List.mem_map.mp h
      rw [← hope]
      rfl
  · rw [if_neg hd] at hop
    obtain ⟨e, _, hope⟩ := List.mem_map.mp hop
    rw [← hope]
    rfl

/-- Filtering the indexed arcs by an arc predicate and then by a fixed edge
index selects at most the one arc stored at that index. -/
theorem length_idx_filter (g : Graph) (c : Nat) (p : Nat × (Nat × Nat) → Bool) :
    (((arcsIdx g).filter p).filter (fun e => decide (e.1 = c))).length
      = if hc : c < g.arcs.length then
          (if p (c, g.arcs.get ⟨c, hc⟩) then 1 else 0)
        else 0 := by
  rw [List.filter_filter, arcsIdx, length_enumF_filter g.arcs 0 c p]
  by_cases hc : c < g.arcs.length
  · rw [dif_pos hc, dif_pos (by omega : 0 ≤ c ∧ c - 0 < g.arcs.length)]
    rfl
  · rw [dif_neg hc, dif_neg (by omega : ¬ (0 ≤ c ∧ c - 0 < g.arcs.length))]

/-- The column-`c` entries of the out-edge traversal of `i` in a directed
graph: one if arc `c` has source `i`, none otherwise. -/
theorem outEdges_count_directed (g : Graph) (hd : g.directed = true) (i c : Nat) :
    ((outEdges g i).filter (fun e => decide (e.1 = c))).length
      = if hc : c < g.arcs.length then
          (if (g.arcs.get ⟨c, hc⟩).1 = i then 1 else 0)
        else 0 := by
  rw [outEdges, if_pos hd, List.filter_map, List.length_map,
    show ((fun e : Nat × Nat => decide (e.1 = c)) ∘ (fun e : Nat × (Nat × Nat) => (e.1, e.2.2)))
      = (fun e : Nat × (Nat × Nat) => decide (e.1 = c)) from rfl,
    length_idx_filter g c (fun e => decide (e.2.1 = i))]
  by_cases hc : c < g.arcs.length
  · rw [dif_pos hc, dif_pos hc]
    by_cases hsrc : (g.arcs.get ⟨c, hc⟩).1 = i
    · rw [if_pos (by simpa using hsrc), if_pos hsrc]
    · rw [if_neg (by simpa using hsrc), if_neg hsrc]
  · rw [dif_neg hc, dif_neg hc]

/-- The column-`c` entries of the in-edge traversal of `i` in a directed
graph: one if arc `c` has target `i`, none otherwise. -/
theorem inEdges_count_directed (g : Graph) (hd : g.directed = true) (i c : Nat) :
    ((inEdges g i).filter (fun e => decide (e.1 = c))).length
      = if hc : c < g.arcs.length then
          (if (g.arcs.get ⟨c, hc⟩).2 = i then 1 else 0)
        else 0 := by
  rw [inEdges, if_pos hd, List.filter_map, List.length_map,
    show ((fun e : Nat × Nat => decide (e.1 = c)) ∘ (fun e : Nat × (Nat × Nat) => (e.1, e.2.1)))
      = (fun e : Nat × (Nat × Nat) => decide (e.1 = c)) from rfl,
    length_idx_filter g c (fun e => decide (e.2.2 = i))]
  by_cases hc : c < g.arcs.length
  · rw [dif_pos hc, dif_pos hc]
    by_cases htgt : (g.arcs.get ⟨c, hc⟩).2 = i
    · rw [if_pos (by simpa using htgt), if_pos htgt]
    · rw [if_neg (by simpa using htgt), if_neg htgt]
  · rw [dif_neg hc, dif_neg hc]

/-- The column-`c` entries of the incident-edge traversal of `i` in an
undirected graph: one per matching endpoint of arc `c` (two for a
self-loop at `i`). -/
theorem outEdges_count_undirected (g : Graph) (hd : g.directed = false) (i c : Nat) :
    ((outEdges g i).filter (fun e => decide (e.1 = c))).length
      = if hc : c < g.arcs.length then
          ((if (g.arcs.get ⟨c, hc⟩).1 = i then 1 else 0)
            + (if (g.arcs.get ⟨c, hc⟩).2 = i then 1 else 0))
        else 0 := by
  rw [outEdges, if_neg (by simp [hd]), List.filter_append, List.length_append,
    List.filter_map, List.length_map, List.filter_map, List.length_map,
    show ((fun e : Nat × Nat => decide (e.1 = c)) ∘ (fun e : Nat × (Nat × Nat) => (e.1, e.2.2)))
      = (fun e : Nat × (Nat × Nat) => decide (e.1 = c)) from rfl,
    show ((fun e : Nat × Nat => decide (e.1 = c)) ∘ (fun e : Nat × (Nat × Nat) => (e.1, e.2.1)))
      = (fun e : Nat × (Nat × Nat) => decide (e.1 = c)) from rfl,
    length_idx_filter g c (fun e => decide (e.2.1 = i)),
    length_idx_filter g c (fun e => decide (e.2.2 = i))]
  by_cases hc : c < g.arcs.length
  · rw [dif_pos hc, dif_pos hc, dif_pos hc]
    by_cases hsrc : (g.arcs.get ⟨c, hc⟩).1 = i
    · rw [if_pos (by simpa using hsrc), if_pos hsrc]
      by_cases htgt : (g.arcs.get ⟨c, hc⟩).2 = i
      · rw [if_pos (by simpa using htgt), if_pos htgt]
      · rw [if_neg (by simpa using htgt), if_neg htgt]
    · rw [if_neg (by simpa using hsrc), if_neg hsrc]
      by_cases htgt : (g.arcs.get ⟨c, hc⟩).2 = i
      · rw [if_pos (by simpa using htgt), if_pos htgt]
      · rw [if_neg (by simpa using htgt), if_neg htgt]
  · rw [dif_neg hc, dif_neg hc, dif_neg hc]

/-- Incidence cell formula, directed graph: +1 if arc `c` enters `i`, -1
if it leaves `i`, the sum of both contributions in general (0 for a
self-loop at `i`). -/
theorem incidence_cell_directed (g : Graph) (hd : g.directed = true) (i : Nat)
    (hi : i < g.n) (c : Nat) :
    incidence g i c
      = (if hc : c < g.arcs.length then
          ((if (g.arcs.get ⟨c, hc⟩).2 = i then (1 : ℚ) else 0)
            - (if (g.arcs.get ⟨c, hc⟩).1 = i then (1 : ℚ) else 0))
        else 0) := by
  rw [incidence, incOps, dapply_catMap_cell _ (incBlock_rows g) g.n i hi _ c,
    incBlock, if_pos hd, dapply_append,
    dapply_incrBlock (inEdges g i) (fun e => e.1) (fun _ => (1 : ℚ)) i _ c,
    dapply_incrBlock (outEdges g i) (fun e => e.1) (fun _ => (-1 : ℚ)) i _ c,
    foldl_add_eq_sum, foldl_add_eq_sum, zero_add, sum_map_constQ, sum_map_constQ,
    outEdges_count_directed g hd i c, inEdges_count_directed g hd i c]
  by_cases hc : c < g.arcs.length
  · rw [dif_pos hc, dif_pos hc, dif_pos hc]
    by_cases hsrc : (g.arcs.get ⟨c, hc⟩).1 = i
    · rw [if_pos hsrc, if_pos hsrc]
      by_cases htgt : (g.arcs.get ⟨c, hc⟩).2 = i
      · rw [if_pos htgt, if_pos htgt]
        norm_num
      · rw [if_neg htgt, if_neg htgt]
        norm_num
    · rw [if_neg hsrc, if_neg hsrc]
      by_cases htgt : (g.arcs.get ⟨c, hc⟩).2 = i
      · rw [if_pos htgt, if_pos htgt]
        norm_num
      · rw [if_neg htgt, if_neg htgt]
        norm_num
  · rw [dif_neg hc, dif_neg hc, dif_neg hc]
    norm_num

/-- Incidence cell formula, undirected graph: +1 per endpoint of arc `c`
equal to `i` (so 2 for a self-loop at `i`). -/
theorem incidence_cell_undirected (g : Graph) (hd : g.directed = false) (i : Nat)
    (hi : i < g.n) (c : Nat) :
    incidence g i c
      = (if hc : c < g.arcs.length then
          ((if (g.arcs.get ⟨c, hc⟩).1 = i then (1 : ℚ) else 0)
            + (if (g.arcs.get ⟨c, hc⟩).2 = i then (1 : ℚ) else 0))
        else 0) := by
  rw [incidence, incOps, dapply_catMap_cell _ (incBlock_rows g) g.n i hi _ c,
    incBlock, if_neg (by simp [hd]),
    dapply_incrBlock (outEdges g i) (fun e => e.1) (fun _ => (1 : ℚ)) i _ c,
    foldl_add_eq_sum, zero_add, sum_map_constQ,
    outEdges_count_undirected g hd i c]
  by_cases hc : c < g.arcs.length
  · rw [dif_pos hc, dif_pos hc]
    by_cases hsrc : (g.arcs.get ⟨c, hc⟩).1 = i
    · by_cases htgt : (g.arcs.get ⟨c, hc⟩).2 = i
      · rw [if_pos hsrc, if_pos htgt, if_pos hsrc, if_pos htgt]
        norm_num
      · rw [if_pos hsrc, if_neg htgt, if_pos hsrc, if_neg htgt]
        norm_num
    · by_cases htgt : (g.arcs.get ⟨c, hc⟩).2 = i
      · rw [if_neg hsrc, if_pos htgt, if_neg hsrc, if_pos htgt]
        norm_num
      · rw [if_neg hsrc, if_neg htgt, if_neg hsrc, if_neg htgt]
        norm_num
  · rw [dif_neg hc, dif_neg hc]
    norm_num

/-- Incidence rows above the vertex count are identically zero. -/
theorem incidence_cell_high (g : Graph) (i : Nat) (hi : g.n ≤ i) (c : Nat) :
    incidence g i c = 0 := by
  rw [incidence, incOps, dapply_catMap_outOfRange _ (incBlock_rows g) g.n i hi _ c]

/-! ### Degrees under the three conventions -/

/-- The total weight of the out-edge traversal of a vertex (its count when
unweighted). -/
def outWeightSum (g : Graph) (weight : Option (Nat → ℚ)) (v : Nat) : ℚ :=
  ((outEdges g v).map (fun e => wOf weight e.1)).sum

theorem inEdges_undirected (g : Graph) (hd : g.directed = false) (v : Nat) :
    inEdges g v = [] := by
  rw [inEdges, if_neg (by simp [hd])]

theorem allEdges_undirected (g : Graph) (hd : g.directed = false) (v : Nat) :
    allEdges g v = outEdges g v := by
  rw [allEdges, if_neg (by simp [hd])]

theorem sum_map_negQ {β : Type} (L : List β) (f : β → ℚ) :
    (L.map (fun e => -(f e))).sum = -((L.map f).sum) := by
  induction L with
  | nil => simp
  | cons x tl ih =>
    rw [List.map_cons, List.sum_cons, ih, List.map_cons, List.sum_cons]
    ring

/-- The out-degree convention realizes the out weight sum. -/
theorem get_deg_out (g : Graph) (weight : Option (Nat → ℚ)) (v : Nat) :
    _get_deg g v "out" weight = outWeightSum g weight v := by
  rw [_get_deg.eq_def, if_neg (by decide), if_neg (by decide), outWeightSum]
  cases weight with
  | none =>
    have hmap : (outEdges g v).map (fun e => wOf none e.1)
        = (outEdges g v).map (fun _ => (1 : ℚ)) := rfl
    rw [hmap, sum_map_constQ, out_degree]
    ring
  | some w => rfl

/-- On an undirected graph the total and the out conventions agree: the
in-edge traversal is empty, so the total reduces to the out part. -/
theorem get_deg_total_undirected (g : Graph) (hd : g.directed = false)
    (weight : Option (Nat → ℚ)) (v : Nat) :
    _get_deg g v "total" weight = _get_deg g v "out" weight := by
  rw [_get_deg.eq_def, if_pos rfl, get_deg_out]
  cases weight with
  | none =>
    rw [in_degree, inEdges_undirected g hd, outWeightSum]
    have hmap : (outEdges g v).map (fun e => wOf none e.1)
        = (outEdges g v).map (fun _ => (1 : ℚ)) := rfl
    rw [hmap, sum_map_constQ, out_degree]
    simp
  | some w =>
    rw [allEdges_undirected g hd, outWeightSum]
    rfl

/-- On an undirected graph the in convention yields the empty sum 0. -/
theorem get_deg_in_undirected (g : Graph) (hd : g.directed = false)
    (weight : Option (Nat → ℚ)) (v : Nat) :
    _get_deg g v "in" weight = 0 := by
  rw [_get_deg.eq_def, if_neg (by decide), if_pos rfl]
  cases weight with
  | none => rw [in_degree, inEdges_undirected g hd]; rfl
  | some w => rw [inEdges_undirected g hd]; rfl

/-! ### Claim theorems -/

/-- A directed single-edge graph. -/
def gD1 : Graph := ⟨2, [(0, 1)], true⟩

/-- An undirected single-edge graph. -/
def gU1 : Graph := ⟨2, [(0, 1)], false⟩

/-- An undirected graph with one self-loop. -/
def gLU : Graph := ⟨1, [(0, 0)], false⟩

/-- A directed graph with two parallel edges. -/
def gPar : Graph := ⟨2, [(0, 1), (0, 1)], true⟩

/-- The empty graph. -/
def gEmpty : Graph := ⟨0, [], true⟩

/-- C1 (counterexample).  The claim asserts that every row of the
unnormalized Laplacian sums to 0 at every vertex with a neighbor, under
any chosen degree convention.  On the directed single-edge graph with
`deg="in"`, vertex 0 has a neighbor but its row sums to -1: the diagonal
holds the in-degree 0 while the off-diagonal entry is -1. -/
theorem nval_hadd (a b : NVal) :
    a + b = ⟨a.q + b.q, if a.k = 0 then b.r else a.r, a.k + b.k⟩ := rfl

theorem claim1_counterexample :
    outEdges gD1 0 ≠ []
    ∧ (∑ j ∈ Finset.range 2, (laplacian gD1 "in" false none 0 j).q) ≠ 0 := by
  constructor
  · decide
  · rw [Finset.sum_range_succ, Finset.sum_range_succ, Finset.sum_range_zero]
    simp +decide [laplacian, lapOps, lapBlock, lapDiagOps, lapTerm, catMap, dapply,
      dstep, outEdges, inEdges, arcsIdx, enumF, wOf, gD1, _get_deg, in_degree,
      out_degree, NVal.ofQ, NVal.zero, nval_hadd, List.filter, List.range,
      List.range.loop]

/-- C1 (amended).  For `deg="out"` (or an undirected graph with
`deg="total"`, which coincides with it), the row of the unnormalized
Laplacian at any vertex carrying no self-loop sums to 0: the assigned
diagonal degree cancels the accumulated off-diagonal weights.  All cells
of such a row are exact rationals (radicand 1 or untouched). -/
theorem claim1_amended (g : Graph) (hg : g.Valid) (deg : String)
    (weight : Option (Nat → ℚ)) (v : Nat) (hv : v < g.n)
    (hloop : (v, v) ∉ g.arcs)
    (hdeg : deg = "out" ∨ (g.directed = false ∧ deg = "total")) :
    (∑ j ∈ Finset.range g.n, (laplacian g deg false weight v j).q) = 0
    ∧ ∀ j : Nat, (laplacian g deg false weight v j).k = 0
        ∨ (laplacian g deg false weight v j).r = 1 := by
  have hq_offdiag : ∀ j : Nat, j ≠ v →
      (laplacian g deg false weight v j).q
        = (((outEdges g v).filter (fun e => decide (e.2 = j))).map
            (fun e => -(wOf weight e.1))).sum := by
    intro j hj
    rw [laplacian_cell_offdiag g deg false weight v hv j hj, nval_foldl_q]
    have hmap : (((outEdges g v).filter (fun e => decide (e.2 = j))).map
          (lapTerm g deg false weight v)).map NVal.q
        = ((outEdges g v).filter (fun e => decide (e.2 = j))).map
            (fun e => -(wOf weight e.1)) := by
      rw [List.map_map]
      rfl
    rw [hmap]
    show (0 : ℚ) + _ = _
    rw [zero_add]
  have hdval : _get_deg g v deg weight = outWeightSum g weight v := by
    rcases hdeg with h | ⟨hund, htot⟩
    · rw [h, get_deg_out]
    · rw [htot, get_deg_total_undirected g hund, get_deg_out]
  constructor
  · have hsplit := Finset.add_sum_erase (Finset.range g.n)
      (fun j => (laplacian g deg false weight v j).q) (Finset.mem_range.mpr hv)
    rw [← hsplit]
    show (laplacian g deg false weight v v).q
        + (∑ j ∈ (Finset.range g.n).erase v, (laplacian g deg false weight v j).q) = 0
    rw [laplacian_cell_diag_unnorm g deg weight v hv]
    have herase : (∑ j ∈ (Finset.range g.n).erase v,
          (laplacian g deg false weight v j).q)
        = ∑ j ∈ (Finset.range g.n).erase v,
            (((outEdges g v).filter (fun e => decide (e.2 = j))).map
              (fun e => -(wOf weight e.1))).sum := by
      refine Finset.sum_congr rfl (fun j hj => ?_)
      exact hq_offdiag j (Finset.mem_erase.mp hj).1
    rw [herase, sum_erase_buckets (outEdges g v) (fun e => e.2)
      (fun e => -(wOf weight e.1)) g.n v
      (fun e he => outEdges_target_lt g hg v e he)]
    have hall : (outEdges g v).filter (fun e => !(decide (e.2 = v)))
        = outEdges g v := by
      rw [List.filter_eq_self]
      intro e he
      simp [outEdges_no_loop g v hloop e he]
    rw [hall, sum_map_negQ, hdval]
    show outWeightSum g weight v + -(outWeightSum g weight v) = 0
    ring
  · intro j
    by_cases hj : j = v
    · rw [hj, laplacian_cell_diag_unnorm g deg weight v hv]
      right
      rfl
    · rw [laplacian_cell_offdiag g deg false weight v hv j hj]
      refine nval_foldl_r _ 1 (fun x hx => ?_) NVal.zero (Or.inl rfl)
      obtain ⟨e, _, hex⟩ := List.mem_map.mp hx
      rw [← hex]
      rfl

/-- C1 (witness): the amended row-sum theorem at the directed single-edge
graph with `deg="out"`, vertex 0. -/
theorem claim1_witness :
    (∑ j ∈ Finset.range gD1.n, (laplacian gD1 "out" false none 0 j).q) = 0
    ∧ ∀ j : Nat, (laplacian gD1 "out" false none 0 j).k = 0
        ∨ (laplacian gD1 "out" false none 0 j).r = 1 :=
  claim1_amended gD1 (by decide) "out" none 0 (by decide) (by decide) (Or.inl rfl)

/-- C2 (counterexample).  The claim asserts that on undirected graphs the
three degree conventions agree for every vertex and weight.  On the
undirected single-edge graph, vertex 0 has degree 0 under "in" but 1 under
"out": the modelled collaborator exposes no separate in-edges for
undirected graphs. -/
theorem claim2_counterexample :
    _get_deg gU1 0 "in" none ≠ _get_deg gU1 0 "out" none := by
  decide

/-- C2 (amended).  On an undirected graph the "total" and "out"
conventions agree for every vertex and every (or no) weight function,
while the "in" convention yields the empty sum 0. -/
theorem claim2_amended (g : Graph) (hd : g.directed = false) (v : Nat)
    (weight : Option (Nat → ℚ)) :
    _get_deg g v "total" weight = _get_deg g v "out" weight
    ∧ _get_deg g v "in" weight = 0 :=
  ⟨get_deg_total_undirected g hd weight v, get_deg_in_undirected g hd weight v⟩

/-- C2 (witness): the amended degree equivalences at the undirected
single-edge graph, vertex 0, unweighted. -/
theorem claim2_witness :
    _get_deg gU1 0 "total" none = _get_deg gU1 0 "out" none
    ∧ _get_deg gU1 0 "in" none = 0 :=
  claim2_amended gU1 (by decide) 0 none

theorem sum_map_constNat {β : Type} (L : List β) :
    (L.map (fun _ => (1 : Nat))).sum = L.length := by
  induction L with
  | nil => rfl
  | cons x tl ih => simp [ih, Nat.add_comm]

/-- C3 (counterexample).  The claim asserts that a zero-degree vertex
yields an all-zero row of the normalized Laplacian.  On the directed
single-edge graph with `deg="in"`, vertex 0 has degree 0 but still owns an
outgoing edge, whose entry `-1/sqrt(0*1)` (cell `⟨-1, 0, 1⟩`) is a
division by zero, not the zero entry. -/
theorem claim3_counterexample :
    _get_deg gD1 0 "in" none = 0
    ∧ ¬ (laplacian gD1 "in" true none 0 1).IsZeroVal := by
  have hcell : laplacian gD1 "in" true none 0 1 = ⟨-1, 0, 1⟩ := by
    simp +decide [laplacian, lapOps, lapBlock, lapDiagOps, lapTerm, catMap, dapply,
      dstep, outEdges, inEdges, arcsIdx, enumF, wOf, gD1, _get_deg, in_degree,
      out_degree, NVal.ofQ, NVal.zero, nval_hadd, List.filter, List.range,
      List.range.loop]
  constructor
  · decide
  · rw [hcell, NVal.IsZeroVal]
    norm_num

/-- C3 (amended).  The diagonal of the normalized Laplacian is the exact
value 1 at every vertex of positive degree; at a vertex of non-positive
degree carrying no self-loop it is the untouched zero; and a vertex of
non-positive degree with no outgoing edges yields an all-zero row.  No
case raises an error. -/
theorem claim3_amended (g : Graph) (deg : String) (weight : Option (Nat → ℚ))
    (v : Nat) (hv : v < g.n) :
    (0 < _get_deg g v deg weight →
      laplacian g deg true weight v v = NVal.ofQ 1)
    ∧ (¬ 0 < _get_deg g v deg weight → (v, v) ∉ g.arcs →
      laplacian g deg true weight v v = NVal.zero)
    ∧ (¬ 0 < _get_deg g v deg weight → outEdges g v = [] →
      ∀ j : Nat, laplacian g deg true weight v j = NVal.zero) := by
  refine ⟨fun hd => laplacian_cell_diag_norm_pos g deg weight v hv hd,
    fun hd hloop => ?_, fun hd hout j => ?_⟩
  · rw [laplacian_cell_diag_norm_nonpos g deg weight v hv hd]
    have hnil : (outEdges g v).filter (fun e => decide (e.2 = v)) = [] := by
      rw [List.filter_eq_nil_iff]
      intro e he
      simp [outEdges_no_loop g v hloop e he]
    rw [hnil]
    rfl
  · by_cases hj : j = v
    · rw [hj, laplacian_cell_diag_norm_nonpos g deg weight v hv hd, hout]
      rfl
    · rw [laplacian_cell_offdiag g deg true weight v hv j hj, hout]
      rfl

/-- C3 (witness): the amended diagonal facts at the directed single-edge
graph with the default convention: vertex 0 has degree 1 and diagonal 1;
an isolated extra vertex has degree 0 and an all-zero row. -/
theorem claim3_witness :
    (0 < _get_deg gD1 0 "total" none →
      laplacian gD1 "total" true none 0 0 = NVal.ofQ 1)
    ∧ (¬ 0 < _get_deg gD1 0 "total" none → (0, 0) ∉ gD1.arcs →
      laplacian gD1 "total" true none 0 0 = NVal.zero)
    ∧ (¬ 0 < _get_deg gD1 0 "total" none → outEdges gD1 0 = [] →
      ∀ j : Nat, laplacian gD1 "total" true none 0 j = NVal.zero) :=
  claim3_amended gD1 "total" none 0 (by decide)

/-- C9 (confirmed).  When a vertex still owns an outgoing edge to `j` but
the product of the two endpoint degrees is zero, the normalized Laplacian
build raises nothing: the off-diagonal cell is produced, it is exactly the
direct evaluation of `-w / sqrt(d * d2)` (numerator the negated total edge
weight, radicand `d * d2 = 0`), and it denotes a non-finite (or undefined)
value. -/
theorem claim9_nonfinite (g : Graph) (deg : String) (weight : Option (Nat → ℚ))
    (v j : Nat) (hv : v < g.n) (hj : j ≠ v)
    (hedge : ∃ e ∈ outEdges g v, e.2 = j)
    (hzero : _get_deg g v deg weight * _get_deg g j deg weight = 0) :
    ¬ (laplacian g deg true weight v j).IsFinite
    ∧ (laplacian g deg true weight v j).r = 0
    ∧ (laplacian g deg true weight v j).q
        = -((((outEdges g v).filter (fun e => decide (e.2 = j))).map
            (fun e => wOf weight e.1)).sum) := by
  have hcell := laplacian_cell_offdiag g deg true weight v hv j hj
  set Lf := (outEdges g v).filter (fun e => decide (e.2 = j)) with hLf
  have hterm_r : ∀ x ∈ Lf.map (lapTerm g deg true weight v), x.r = 0 := by
    intro x hx
    obtain ⟨e, he, hex⟩ := List.mem_map.mp hx
    have hej : e.2 = j := of_decide_eq_true (List.mem_filter.mp he).2
    rw [← hex]
    show _get_deg g v deg weight * _get_deg g e.2 deg weight = 0
    rw [hej]
    exact hzero
  have hterm_k : (Lf.map (lapTerm g deg true weight v)).map NVal.k
      = Lf.map (fun _ => (1 : Nat)) := by
    rw [List.map_map]
    rfl
  have hk : (laplacian g deg true weight v j).k = Lf.length := by
    rw [hcell, nval_foldl_k, hterm_k, sum_map_constNat]
    simp [NVal.zero]
  have hpos : 0 < Lf.length := by
    obtain ⟨e, he, hej⟩ := hedge
    have : e ∈ Lf := List.mem_filter.mpr ⟨he, by simp [hej]⟩
    exact List.length_pos.mpr (fun hnil => by rw [hnil] at this; exact absurd this (List.not_mem_nil e))
  have hr : (laplacian g deg true weight v j).r = 0 := by
    rcases nval_foldl_r (Lf.map (lapTerm g deg true weight v)) 0 hterm_r NVal.zero
        (Or.inl rfl) with h0 | h0
    · rw [← hcell] at h0
      rw [hk] at h0
      omega
    · rw [← hcell] at h0
      exact h0
  refine ⟨?_, hr, ?_⟩
  · rw [NVal.IsFinite]
    push_neg
    constructor
    · rw [hk]
      omega
    · rw [hr]
  · rw [hcell, nval_foldl_q]
    have hterm_q : (Lf.map (lapTerm g deg true weight v)).map NVal.q
        = Lf.map (fun e => -(wOf weight e.1)) := by
      rw [List.map_map]
      rfl
    rw [hterm_q, sum_map_negQ]
    show (0 : ℚ) + _ = _
    rw [zero_add]

/-- C9 (witness): the non-finite entry at the directed single-edge graph
with `deg="in"`: vertex 0 has in-degree 0, so the entry at (0, 1) is
`-1/sqrt(0)`. -/
theorem claim9_witness :
    ¬ (laplacian gD1 "in" true none 0 1).IsFinite
    ∧ (laplacian gD1 "in" true none 0 1).r = 0
    ∧ (laplacian gD1 "in" true none 0 1).q
        = -((((outEdges gD1 0).filter (fun e => decide (e.2 = 1))).map
            (fun e => wOf none e.1)).sum) :=
  by
  have h0 : _get_deg gD1 0 "in" none = 0 := by decide
  exact claim9_nonfinite gD1 "in" none 0 1 (by decide) (by decide)
    ⟨(0, 1), by decide, rfl⟩ (by rw [h0, zero_mul])

/-- Dropping the indices of the enumeration does not change how many
entries pass an index-independent filter. -/
theorem length_enumF_filter_snd {β : Type} (L : List β) (s : Nat) (p : β → Bool) :
    ((enumF s L).filter (fun e => p e.2)).length = (L.filter p).length := by
  induction L generalizing s with
  | nil => rfl
  | cons a tl ih =>
    rw [enumF, List.filter_cons, List.filter_cons]
    by_cases hp : p a
    · have h1 : (p ((s, a) : Nat × β).2) = true := hp
      rw [if_pos (by simp [h1]), if_pos (by simp [hp]), List.length_cons,
        List.length_cons, ih (s + 1)]
    · have h1 : ¬ ((p ((s, a) : Nat × β).2) = true) := by simp [hp]
      rw [if_neg h1, if_neg (by simp [hp]), ih (s + 1)]

/-- The unweighted arc weight total is the directed arc multiplicity. -/
theorem edgeWeightTotal_none (g : Graph) (u v : Nat) :
    edgeWeightTotal g none u v = (edgeMultiplicity g u v : ℚ) := by
  rw [edgeWeightTotal, edgeMultiplicity]
  have hmap : (((arcsIdx g).filter (fun e => decide (e.2.1 = u ∧ e.2.2 = v))).map
        (fun e => wOf none e.1))
      = (((arcsIdx g).filter (fun e => decide (e.2.1 = u ∧ e.2.2 = v))).map
        (fun _ => (1 : ℚ))) := rfl
  rw [hmap, sum_map_constQ]
  have hlen : ((arcsIdx g).filter (fun e => decide (e.2.1 = u ∧ e.2.2 = v))).length
      = (g.arcs.filter (fun a => decide (a = (u, v)))).length := by
    rw [arcsIdx, length_enumF_filter_snd g.arcs 0
      (fun a => decide (a.1 = u ∧ a.2 = v))]
    have : g.arcs.filter (fun a => decide (a.1 = u ∧ a.2 = v))
        = g.arcs.filter (fun a => decide (a = (u, v))) := by
      refine List.filter_congr (fun a _ => ?_)
      simp [Prod.ext_iff]
    rw [this]
  rw [hlen]
  ring

/-- The filtered-by-target out-edge weights of `u` in a directed graph sum
to the arc weight total. -/
theorem adjacency_cell_sum_directed (g : Graph) (hd : g.directed = true)
    (weight : Option (Nat → ℚ)) (u : Nat) (hu : u < g.n) (v : Nat) :
    adjacency g weight u v = edgeWeightTotal g weight u v := by
  rw [adjacency_cell g weight u hu v, outEdges, if_pos hd, List.filter_map,
    List.map_map, edgeWeightTotal, List.filter_filter]
  have hpred : (arcsIdx g).filter (fun a =>
        ((fun e : Nat × Nat => decide (e.2 = v)) ∘
          (fun e : Nat × (Nat × Nat) => (e.1, e.2.2))) a && decide (a.2.1 = u))
      = (arcsIdx g).filter (fun e => decide (e.2.1 = u ∧ e.2.2 = v)) := by
    refine List.filter_congr (fun a _ => ?_)
    simp [Function.comp, Bool.and_comm]
  rw [hpred]
  rfl

/-- In an undirected graph the cell `(u, v)` collects both stored
orientations: arcs `(u, v)` seen from `u`, and arcs `(v, u)` seen from `u`
as well. -/
theorem adjacency_cell_sum_undirected (g : Graph) (hd : g.directed = false)
    (weight : Option (Nat → ℚ)) (u : Nat) (hu : u < g.n) (v : Nat) :
    adjacency g weight u v
      = edgeWeightTotal g weight u v + edgeWeightTotal g weight v u := by
  rw [adjacency_cell g weight u hu v, outEdges, if_neg (by simp [hd]),
    List.filter_append, List.map_append, List.sum_append,
    List.filter_map, List.map_map, List.filter_map, List.map_map,
    List.filter_filter, List.filter_filter]
  have hpred1 : (arcsIdx g).filter (fun a =>
        ((fun e : Nat × Nat => decide (e.2 = v)) ∘
          (fun e : Nat × (Nat × Nat) => (e.1, e.2.2))) a && decide (a.2.1 = u))
      = (arcsIdx g).filter (fun e => decide (e.2.1 = u ∧ e.2.2 = v)) := by
    refine List.filter_congr (fun a _ => ?_)
    simp [Function.comp, Bool.and_comm]
  have hpred2 : (arcsIdx g).filter (fun a =>
        ((fun e : Nat × Nat => decide (e.2 = v)) ∘
          (fun e : Nat × (Nat × Nat) => (e.1, e.2.1))) a && decide (a.2.2 = u))
      = (arcsIdx g).filter (fun e => decide (e.2.1 = v ∧ e.2.2 = u)) := by
    refine List.filter_congr (fun a _ => ?_)
    simp [Function.comp, Bool.and_comm]
  rw [hpred1, hpred2]
  rfl

/-- C4 (counterexample).  The claim asserts the entry equals the
multiplicity (or total weight) of the parallel edges from `u` to `v`.  On
an undirected graph with a single self-loop, the diagonal entry is 2 while
the loop multiplicity is 1: the incident-edge traversal visits the loop
from both endpoints. -/
theorem claim4_counterexample :
    adjacency gLU none 0 0 = 2
    ∧ edgeMultiplicity gLU 0 0 = 1
    ∧ adjacency gLU none 0 0 ≠ (edgeMultiplicity gLU 0 0 : ℚ) := by
  have hcell : adjacency gLU none 0 0 = 2 := by
    norm_num [adjacency, adjOps, adjBlock, catMap, dapply, dstep, outEdges, arcsIdx,
      enumF, wOf, gLU, List.filter, List.range, List.range.loop]
  refine ⟨hcell, by decide, ?_⟩
  rw [hcell, show edgeMultiplicity gLU 0 0 = 1 from by decide]
  norm_num

/-- C4 (amended).  The adjacency entry at `(u, v)` is the total weight
(multiplicity, if unweighted) of the stored arcs `(u, v)` on a directed
graph; on an undirected graph it is the total over both stored
orientations, so an undirected self-loop contributes twice. -/
theorem claim4_amended (g : Graph) (weight : Option (Nat → ℚ)) (u : Nat)
    (hu : u < g.n) (v : Nat) :
    (g.directed = true → adjacency g weight u v = edgeWeightTotal g weight u v)
    ∧ (g.directed = false →
        adjacency g weight u v
          = edgeWeightTotal g weight u v + edgeWeightTotal g weight v u)
    ∧ (g.directed = false →
        adjacency g weight u u = 2 * edgeWeightTotal g weight u u)
    ∧ edgeWeightTotal g none u v = (edgeMultiplicity g u v : ℚ) := by
  refine ⟨fun hd => adjacency_cell_sum_directed g hd weight u hu v,
    fun hd => adjacency_cell_sum_undirected g hd weight u hu v,
    fun hd => ?_, edgeWeightTotal_none g u v⟩
  rw [adjacency_cell_sum_undirected g hd weight u hu u]
  ring

/-- C4 (witness): the amended entry formula at the parallel-edge graph:
two parallel directed edges 0 to 1 give entry 2. -/
theorem claim4_witness :
    ((gPar.directed = true →
      adjacency gPar none 0 1 = edgeWeightTotal gPar none 0 1)
    ∧ (gPar.directed = false →
        adjacency gPar none 0 1
          = edgeWeightTotal gPar none 0 1 + edgeWeightTotal gPar none 1 0)
    ∧ (gPar.directed = false →
        adjacency gPar none 0 0 = 2 * edgeWeightTotal gPar none 0 0)
    ∧ edgeWeightTotal gPar none 0 1 = (edgeMultiplicity gPar 0 1 : ℚ))
    ∧ edgeMultiplicity gPar 0 1 = 2 :=
  ⟨claim4_amended gPar none 0 (by decide) 1, by decide⟩

/-- C5 (confirmed).  In the incidence matrix of a directed graph, the
column of an edge whose endpoints differ holds exactly one +1 (at the
target row), one -1 (at the source row) and zeros elsewhere; the column of
a self-loop receives both contributions at the same cell and nets to 0
everywhere. -/
theorem claim5_incidence_directed (g : Graph) (hg : g.Valid)
    (hd : g.directed = true) (c : Nat) (hc : c < g.arcs.length) :
    ((g.arcs.get ⟨c, hc⟩).1 ≠ (g.arcs.get ⟨c, hc⟩).2 →
      incidence g (g.arcs.get ⟨c, hc⟩).2 c = 1
      ∧ incidence g (g.arcs.get ⟨c, hc⟩).1 c = -1
      ∧ ∀ i : Nat, i ≠ (g.arcs.get ⟨c, hc⟩).1 → i ≠ (g.arcs.get ⟨c, hc⟩).2 →
          incidence g i c = 0)
    ∧ ((g.arcs.get ⟨c, hc⟩).1 = (g.arcs.get ⟨c, hc⟩).2 →
      ∀ i : Nat, incidence g i c = 0) := by
  have harc := hg (g.arcs.get ⟨c, hc⟩) (g.arcs.get_mem c _)
  constructor
  · intro hne
    refine ⟨?_, ?_, ?_⟩
    · rw [incidence_cell_directed g hd _ harc.2 c, dif_pos hc, if_pos rfl,
        if_neg hne]
      norm_num
    · rw [incidence_cell_directed g hd _ harc.1 c, dif_pos hc, if_pos rfl,
        if_neg (fun h => hne h.symm)]
      norm_num
    · intro i hi1 hi2
      by_cases hin : i < g.n
      · rw [incidence_cell_directed g hd i hin c, dif_pos hc,
          if_neg (fun h => hi2 h.symm), if_neg (fun h => hi1 h.symm)]
        norm_num
      · exact incidence_cell_high g i (by omega) c
  · intro hloop i
    by_cases hin : i < g.n
    · rw [incidence_cell_directed g hd i hin c, dif_pos hc]
      by_cases hi : (g.arcs.get ⟨c, hc⟩).1 = i
      · rw [if_pos (hloop ▸ hi), if_pos hi]
        norm_num
      · rw [if_neg (hloop ▸ hi), if_neg hi]
        norm_num
    · exact incidence_cell_high g i (by omega) c

/-- C5 (witness): the directed incidence column facts at the single-edge
graph: column 0 holds -1 at row 0, +1 at row 1. -/
theorem claim5_witness :
    ((gD1.arcs.get ⟨0, by decide⟩).1 ≠ (gD1.arcs.get ⟨0, by decide⟩).2 →
      incidence gD1 (gD1.arcs.get ⟨0, by decide⟩).2 0 = 1
      ∧ incidence gD1 (gD1.arcs.get ⟨0, by decide⟩).1 0 = -1
      ∧ ∀ i : Nat, i ≠ (gD1.arcs.get ⟨0, by decide⟩).1 →
          i ≠ (gD1.arcs.get ⟨0, by decide⟩).2 → incidence gD1 i 0 = 0)
    ∧ ((gD1.arcs.get ⟨0, by decide⟩).1 = (gD1.arcs.get ⟨0, by decide⟩).2 →
      ∀ i : Nat, incidence gD1 i 0 = 0) :=
  claim5_incidence_directed gD1 (by decide) (by decide) 0 (by decide)

/-- C6 (confirmed).  In the incidence matrix of an undirected graph, the
column of an edge whose endpoints differ holds exactly two +1 entries (one
per endpoint) and zeros elsewhere; the column of a self-loop holds the
single entry 2 at its vertex. -/
theorem claim6_incidence_undirected (g : Graph) (hg : g.Valid)
    (hd : g.directed = false) (c : Nat) (hc : c < g.arcs.length) :
    ((g.arcs.get ⟨c, hc⟩).1 ≠ (g.arcs.get ⟨c, hc⟩).2 →
      incidence g (g.arcs.get ⟨c, hc⟩).1 c = 1
      ∧ incidence g (g.arcs.get ⟨c, hc⟩).2 c = 1
      ∧ ∀ i : Nat, i ≠ (g.arcs.get ⟨c, hc⟩).1 → i ≠ (g.arcs.get ⟨c, hc⟩).2 →
          incidence g i c = 0)
    ∧ ((g.arcs.get ⟨c, hc⟩).1 = (g.arcs.get ⟨c, hc⟩).2 →
      incidence g (g.arcs.get ⟨c, hc⟩).1 c = 2
      ∧ ∀ i : Nat, i ≠ (g.arcs.get ⟨c, hc⟩).1 → incidence g i c = 0) := by
  have harc := hg (g.arcs.get ⟨c, hc⟩) (g.arcs.get_mem c _)
  constructor
  · intro hne
    refine ⟨?_, ?_, ?_⟩
    · rw [incidence_cell_undirected g hd _ harc.1 c, dif_pos hc, if_pos rfl,
        if_neg (fun h => hne h.symm)]
      norm_num
    · rw [incidence_cell_undirected g hd _ harc.2 c, dif_pos hc, if_pos rfl,
        if_neg hne]
      norm_num
    · intro i hi1 hi2
      by_cases hin : i < g.n
      · rw [incidence_cell_undirected g hd i hin c, dif_pos hc,
          if_neg (fun h => hi1 h.symm), if_neg (fun h => hi2 h.symm)]
        norm_num
      · exact incidence_cell_high g i (by omega) c
  · intro hloop
    constructor
    · rw [incidence_cell_undirected g hd _ harc.1 c, dif_pos hc, if_pos rfl,
        if_pos hloop.symm]
      norm_num
    · intro i hi
      by_cases hin : i < g.n
      · rw [incidence_cell_undirected g hd i hin c, dif_pos hc,
          if_neg (fun h => hi h.symm), if_neg (fun h => hi (hloop.trans h).symm)]
        norm_num
      · exact incidence_cell_high g i (by omega) c

/-- C6 (witness): the undirected incidence column facts at the self-loop
graph: the loop column holds the single entry 2. -/
theorem claim6_witness :
    ((gLU.arcs.get ⟨0, by decide⟩).1 ≠ (gLU.arcs.get ⟨0, by decide⟩).2 →
      incidence gLU (gLU.arcs.get ⟨0, by decide⟩).1 0 = 1
      ∧ incidence gLU (gLU.arcs.get ⟨0, by decide⟩).2 0 = 1
      ∧ ∀ i : Nat, i ≠ (gLU.arcs.get ⟨0, by decide⟩).1 →
          i ≠ (gLU.arcs.get ⟨0, by decide⟩).2 → incidence gLU i 0 = 0)
    ∧ ((gLU.arcs.get ⟨0, by decide⟩).1 = (gLU.arcs.get ⟨0, by decide⟩).2 →
      incidence gLU (gLU.arcs.get ⟨0, by decide⟩).1 0 = 2
      ∧ ∀ i : Nat, i ≠ (gLU.arcs.get ⟨0, by decide⟩).1 → incidence gLU i 0 = 0) :=
  claim6_incidence_undirected gLU (by decide) (by decide) 0 (by decide)

/-- C7 (confirmed).  For every graph and every parameter combination the
sparse and the dense builds of adjacency, Laplacian and incidence agree
entry by entry: reading any position of the association-list build equals
the function-matrix build there. -/
theorem claim7_sparse_dense (g : Graph) (weight : Option (Nat → ℚ))
    (deg : String) (normalized : Bool) (i j : Nat) :
    sget (adjacencyS g weight) i j = adjacency g weight i j
    ∧ sget (laplacianS g deg normalized weight) i j
        = laplacian g deg normalized weight i j
    ∧ sget (incidenceS g) i j = incidence g i j :=
  ⟨sapply_dapply_agree (adjOps g weight) [] _ (fun _ _ => rfl) i j,
    sapply_dapply_agree (lapOps g deg normalized weight) [] _ (fun _ _ => rfl) i j,
    sapply_dapply_agree (incOps g) [] _ (fun _ _ => rfl) i j⟩

/-- C8 (confirmed, collaborator modelled from the spec).  The checked
Laplacian fails exactly when `deg` is not one of "total", "in", "out"; on
failure the result is the bare `InvalidArgument` error, independent of the
graph, so no matrix work happens and no partial matrix is returned. -/
theorem claim8_deg_validation (g : Graph) (deg : String) (normalized : Bool)
    (weight : Option (Nat → ℚ)) :
    ((∃ m, laplacianChecked g deg normalized weight = Except.ok m)
      ↔ (deg = "total" ∨ deg = "in" ∨ deg = "out"))
    ∧ (¬ (deg = "total" ∨ deg = "in" ∨ deg = "out") →
        ∀ g2 : Graph,
          laplacianChecked g deg normalized weight
            = laplacianChecked g2 deg normalized weight
          ∧ laplacianChecked g deg normalized weight
            = Except.error "InvalidArgument") := by
  constructor
  · constructor
    · intro ⟨m, hm⟩
      by_cases hdeg : deg = "total" ∨ deg = "in" ∨ deg = "out"
      · exact hdeg
      · rw [laplacianChecked, if_neg hdeg] at hm
        exact absurd hm (by simp)
    · intro hdeg
      exact ⟨laplacian g deg normalized weight, by rw [laplacianChecked, if_pos hdeg]⟩
  · intro hdeg g2
    rw [laplacianChecked, if_neg hdeg, laplacianChecked, if_neg hdeg]
    exact ⟨rfl, rfl⟩

/-- C8 (witness): a valid and an invalid `deg` at the single-edge graph:
"total" succeeds, "foo" yields exactly the `InvalidArgument` error. -/
theorem claim8_witness :
    (∃ m, laplacianChecked gD1 "total" true none = Except.ok m)
    ∧ laplacianChecked gD1 "foo" true none = Except.error "InvalidArgument" :=
  ⟨(claim8_deg_validation gD1 "total" true none).1.mpr (Or.inl rfl),
    ((claim8_deg_validation gD1 "foo" true none).2 (by decide) gD1).2⟩

/-- C10 (confirmed).  On a graph with zero vertices (hence, being valid,
zero edges) all three builders emit no operations and return normally: the
sparse builds are the empty association list and the dense builds are the
zero function, a 0-by-0 matrix in both storage forms. -/
theorem claim10_empty (g : Graph) (hn : g.n = 0) (hg : g.Valid) :
    g.arcs = []
    ∧ (∀ weight : Option (Nat → ℚ), adjOps g weight = []
        ∧ adjacencyS g weight = []
        ∧ ∀ i j : Nat, adjacency g weight i j = 0)
    ∧ (∀ deg : String, ∀ normalized : Bool, ∀ weight : Option (Nat → ℚ),
        lapOps g deg normalized weight = []
        ∧ laplacianS g deg normalized weight = []
        ∧ ∀ i j : Nat, laplacian g deg normalized weight i j = NVal.zero)
    ∧ (incOps g = [] ∧ incidenceS g = []
        ∧ ∀ i j : Nat, incidence g i j = 0) := by
  have hrange : List.range g.n = [] := by rw [hn]; rfl
  refine ⟨?_, fun weight => ?_, fun deg normalized weight => ?_, ?_⟩
  · cases harcs : g.arcs with
    | nil => rfl
    | cons a tl =>
      have := (hg a (by rw [harcs]; exact List.mem_cons_self _ _)).1
      omega
  · refine ⟨?_, ?_, fun i j => ?_⟩
    · rw [adjOps, hrange]
      rfl
    · rw [adjacencyS, adjOps, hrange]
      rfl
    · rw [adjacency, adjOps, hrange]
      rfl
  · refine ⟨?_, ?_, fun i j => ?_⟩
    · rw [lapOps, hrange]
      rfl
    · rw [laplacianS, lapOps, hrange]
      rfl
    · rw [laplacian, lapOps, hrange]
      rfl
  · refine ⟨?_, ?_, fun i j => ?_⟩
    · rw [incOps, hrange]
      rfl
    · rw [incidenceS, incOps, hrange]
      rfl
    · rw [incidence, incOps, hrange]
      rfl

/-- C10 (witness): the empty graph. -/
theorem claim10_witness :
    gEmpty.arcs = []
    ∧ (∀ weight : Option (Nat → ℚ), adjOps gEmpty weight = []
        ∧ adjacencyS gEmpty weight = []
        ∧ ∀ i j : Nat, adjacency gEmpty weight i j = 0)
    ∧ (∀ deg : String, ∀ normalized : Bool, ∀ weight : Option (Nat → ℚ),
        lapOps gEmpty deg normalized weight = []
        ∧ laplacianS gEmpty deg normalized weight = []
        ∧ ∀ i j : Nat, laplacian gEmpty deg normalized weight i j = NVal.zero)
    ∧ (incOps gEmpty = [] ∧ incidenceS gEmpty = []
        ∧ ∀ i j : Nat, incidence gEmpty i j = 0) :=
  claim10_empty gEmpty rfl (by decide)

end GTS
